import Mathlib

/-!
Verification of the Lume incremental build core against its specification.

The definitions below are shallow embeddings of the TypeScript/JavaScript
sources:
  * `Lume.merge`, `Lume.searchByExtension`, the `concurrent` helper
    (src/utils.js),
  * the `Reader` virtual file layer (`read`, `deleteCache`, `getInfo`,
    `remoteFile` registration state) from the Reader module,
  * the build/update orchestration of `Site.build`, `Site.update` and
    `Site.#buildPages` (src/core/site.ts), and
  * a heap-passing model of `merge` used to reason about mutation.

JavaScript dynamic values are modelled by the inductive `JVal`
(respectively `HVal`/`HNode` for the heap model); JS truthiness,
`typeof x === "object"` and `Array.isArray` are modelled by explicit
boolean functions.  `Map`/`Set` state is modelled by association lists
with the unique-key discipline JavaScript `Map` guarantees.
-/

set_option maxRecDepth 10000

namespace Lume

/-! ## JavaScript values (for `merge` in src/utils.js) -/

/-- A JavaScript value as handled by `merge`: scalars, `null`, arrays and
plain objects.  Objects are insertion-ordered association lists, as
`Object.entries` / property assignment expose them. -/
inductive JVal where
  | num : Int → JVal
  | str : String → JVal
  | bool : Bool → JVal
  | null : JVal
  | arr : List JVal → JVal
  | obj : List (String × JVal) → JVal
deriving Repr

/-- `typeof v === "object"`: true for plain objects, arrays and `null`. -/
def jsTypeofObject : JVal → Bool
  | .obj _ => true
  | .arr _ => true
  | .null => true
  | _ => false

/-- `Array.isArray v`. -/
def jsIsArray : JVal → Bool
  | .arr _ => true
  | _ => false

/-- JS falsiness of a value, as tested by `if (!user)`. -/
def jsFalsy : JVal → Bool
  | .null => true
  | .bool b => !b
  | .num n => n == 0
  | .str s => s == ""
  | _ => false

/-- First-match lookup in an association list (JS property read /
`Map.get`; keys are unique in actual JS objects and maps). -/
def getKey : List (String × β) → String → Option β
  | [], _ => none
  | (k, v) :: rest, key => if k = key then some v else getKey rest key

/-- Property assignment `o[key] = val` / `Map.set`: replace the first
occurrence in place, else append (insertion order preserved). -/
def setKey : List (String × β) → String → β → List (String × β)
  | [], key, val => [(key, val)]
  | (k, v) :: rest, key, val =>
    if k = key then (key, val) :: rest else (k, v) :: setKey rest key val

/-- `Map.delete key`: remove the entry for `key` (keys are unique, so
filtering all occurrences is the same operation). -/
def delKey (l : List (String × β)) (key : String) : List (String × β) :=
  l.filter (fun kv => kv.1 != key)

/-- The keyed entries a value contributes both to spread `{...v}` and to
`Object.entries(v)`: an object's own entries, an array's index-keyed
entries, a string's index-keyed characters, and nothing for the other
primitives. -/
def jsEntries : JVal → List (String × JVal)
  | .obj kvs => kvs
  | .arr vs => vs.enum.map (fun iv => (toString iv.1, iv.2))
  | .str s => s.toList.enum.map (fun ic => (toString ic.1, .str (String.singleton ic.2)))
  | _ => []

/-- One iteration of the `for (const [key, value] of Object.entries(user))`
loop body of `merge`:
if `typeof merged[key] === "object" && typeof value === "object" &&
!Array.isArray(merged[key])` then `merged[key] = merge(merged[key], value)`
else `merged[key] = value`.  The recursive `merge` call is abstracted by
`rec`. -/
def mergeStep (rec : JVal → JVal → JVal) (merged : List (String × JVal))
    (kv : String × JVal) : List (String × JVal) :=
  match getKey merged kv.1 with
  | some dv =>
    if jsTypeofObject dv && jsTypeofObject kv.2 && !jsIsArray dv then
      setKey merged kv.1 (rec dv kv.2)
    else
      setKey merged kv.1 kv.2
  | none => setKey merged kv.1 kv.2

/-- The whole entries loop of `merge`. -/
def mergeGo (rec : JVal → JVal → JVal) (merged : List (String × JVal)) :
    List (String × JVal) → List (String × JVal)
  | [] => merged
  | kv :: rest => mergeGo rec (mergeStep rec merged kv) rest

/-- `merge(defaults, user)` from src/utils.js.  `fuel` bounds the
recursion depth (JavaScript recurses on nested values; any fuel larger
than the nesting depth of `user` gives the function's value). -/
def merge : Nat → JVal → JVal → JVal
  | 0, _, _ => .obj []
  | fuel + 1, defaults, user =>
    let merged := jsEntries defaults
    if jsFalsy user then .obj merged
    else .obj (mergeGo (merge fuel) merged (jsEntries user))

/-- Property read on the object `merge` returns. -/
def objLookup : JVal → String → Option JVal
  | .obj kvs, key => getKey kvs key
  | _, _ => none

/-! ## `searchByExtension` (src/utils.js) -/

/-- JS `s.endsWith(p)`, over the character list (true iff `p` is a
suffix of `s`). -/
def jsEndsWith (s p : String) : Bool :=
  p.data == s.data.drop (s.data.length - p.data.length)

/-- JS `s.startsWith(p)`, over the character list. -/
def jsStartsWith (s p : String) : Bool :=
  s.data.take p.data.length == p.data

/-- JS `s.slice(0, -1)`: drop the last character. -/
def strDropLast (s : String) : String := ⟨s.data.dropLast⟩

/-- JS `s.slice(1)`: drop the first character. -/
def strDropFirst (s : String) : String := ⟨s.data.drop 1⟩

/-- `searchByExtension(path, extensions)`: iterate the registered
extensions in order and return the first `[key, value]` whose key is a
suffix of `path`, or `undefined`. -/
def searchByExtension (path : String) : List (String × α) → Option (String × α)
  | [] => none
  | (k, v) :: rest =>
    if jsEndsWith path k then some (k, v) else searchByExtension path rest

/-! ## The `Reader` virtual file layer -/

/-- A registered remote file (`RemoteFile` interface): the source URL,
the virtual filename and the disabled flag (optional in TS, so absent
means falsy — modelled as a plain `Bool`). -/
structure RemoteFile where
  url : String
  filename : String
  disabled : Bool
deriving Repr, DecidableEq

/-- A load outcome: the settled state of the promise a loader returned.
The cause of a rejection and the loaded data are both modelled as
strings. -/
abbrev LoadOutcome := Except String String

/-- A loader `(path: string) => Promise<Data>`, modelled by the settled
outcome it produces for each location it is invoked on. -/
abbrev Loader := String → LoadOutcome

/-- The `Exception` thrown by `Reader.read` on a failed load: it carries
the message, the original cause and the *local* full path. -/
structure Exc where
  msg : String
  cause : String
  fullpath : String
deriving Repr, DecidableEq

/-- Wrapping of a load outcome by `Reader.read`: successes pass through,
a rejection is rethrown as
`new Exception("Couldn't load this file", { cause, fullpath })`. -/
def wrapExc : LoadOutcome → String → Except Exc String
  | .ok d, _ => .ok d
  | .error cause, fp => .error ⟨"Couldn't load this file", cause, fp⟩

/-- Model of `posix.join(src, path)` followed by the trailing-slash strip
done by `getFullPath`.  The external path library's dot-segment
normalisation is not modelled; segments are joined with a single `/`. -/
def posixJoin (a b : String) : String :=
  if a = "" then b
  else if b = "" then a
  else (if jsEndsWith a "/" then strDropLast a else a) ++ "/" ++
    (if jsStartsWith b "/" then strDropFirst b else b)

/-- The `Reader` state: the `src` root, the content cache (a `Map` from
full path to the cached load outcome), the registered remote files and
the synthesized remote directories. -/
structure Reader where
  src : String
  cache : List (String × LoadOutcome)
  remoteFiles : List (String × RemoteFile)
  remoteDirectories : List String
deriving Repr

/-- `getFullPath(path)`: join with `src` and strip a trailing slash. -/
def Reader.getFullPath (st : Reader) (path : String) : String :=
  let fullPath := posixJoin st.src path
  if jsEndsWith fullPath "/" then strDropLast fullPath else fullPath

/-- `deleteCache(path)`: drop the cache slot of the full path. -/
def Reader.deleteCache (st : Reader) (path : String) : Reader :=
  { st with cache := delKey st.cache (st.getFullPath path) }

/-- `clearCache()`. -/
def Reader.clearCache (st : Reader) : Reader :=
  { st with cache := [] }

/-- The location `read` hands to the loader:
`(!remote || remote.disabled) ? fullpath : remote.url`. -/
def Reader.loadPath (st : Reader) (path : String) : String :=
  let fullpath := st.getFullPath path
  match getKey st.remoteFiles fullpath with
  | none => fullpath
  | some remote => if remote.disabled then fullpath else remote.url

/-- `read(path, loader)`: resolve the load location, then return the
cached outcome for the full path, invoking the loader and filling the
slot only when the slot is empty.  The third component records whether
this call invoked the loader. -/
def Reader.read (st : Reader) (path : String) (loader : Loader) :
    Except Exc String × Reader × Bool :=
  let fullpath := st.getFullPath path
  match getKey st.cache fullpath with
  | some res => (wrapExc res fullpath, st, false)
  | none =>
    let res := loader (st.loadPath path)
    (wrapExc res fullpath,
     { st with cache := setKey st.cache fullpath res }, true)

/-- `n` successive `read(path, loader)` calls: the list of results, the
final state and the total number of loader invocations. -/
def Reader.readN (st : Reader) (path : String) (loader : Loader) :
    Nat → List (Except Exc String) × Reader × Nat
  | 0 => ([], st, 0)
  | n + 1 =>
    let r := st.read path loader
    let rest := r.2.1.readN path loader n
    (r.1 :: rest.1, rest.2.1, (if r.2.2 then 1 else 0) + rest.2.2)

/-- The fields of `Deno.FileInfo` relevant here; the synthetic info the
Reader fabricates sets `size` to `0` and `mtime` to `null`. -/
structure FileInfo where
  isFile : Bool
  isDirectory : Bool
  isSymlink : Bool
  size : Nat
  mtime : Option Nat
deriving Repr, DecidableEq

/-- The outcome of `Deno.stat` on a path: file info, a `NotFound` error,
or another error. -/
inductive StatRes where
  | found : FileInfo → StatRes
  | notFound : StatRes
  | err : String → StatRes
deriving Repr, DecidableEq

/-- Set the `disabled` flag of the remote file registered at `key`
(mutation of the `RemoteFile` object held in the map). -/
def Reader.setRemoteDisabled (st : Reader) (key : String) (b : Bool) : Reader :=
  { st with
    remoteFiles := st.remoteFiles.map
      (fun kv => if kv.1 = key then (kv.1, { kv.2 with disabled := b }) else kv) }

/-- `getInfo(path)`: stat the full path against the local filesystem
`fs`.  A local hit disables any remote file at that path and returns the
local info.  On `NotFound`, a registered remote file (re-enabled) or
remote directory yields synthetic zero-size info; otherwise `undefined`.
Other stat errors are rethrown. -/
def Reader.getInfo (st : Reader) (fs : String → StatRes) (path : String) :
    Except String (Option FileInfo) × Reader :=
  let fullPath := st.getFullPath path
  let remoteFile := getKey st.remoteFiles fullPath
  let remoteDirectory := st.remoteDirectories.contains fullPath
  match fs fullPath with
  | .found info =>
    (.ok (some info),
     if remoteFile.isSome then st.setRemoteDisabled fullPath true else st)
  | .notFound =>
    if remoteFile.isSome || remoteDirectory then
      (.ok (some ⟨remoteFile.isSome, !remoteFile.isSome, false, 0, none⟩),
       if remoteFile.isSome then st.setRemoteDisabled fullPath false else st)
    else
      (.ok none, st)
  | .err e => (.error e, st)

/-! ## `Site.build` / `Site.update` / `Site.#buildPages` (src/core/site.ts) -/

/-- The outcome each event dispatch of a cycle would report (`true` keeps
going, `false` is the cancellation signal a listener returned).  Only the
dispatches whose result the orchestrator inspects are recorded; `afterBuild`
and `afterUpdate` results are never inspected. -/
structure EventResults where
  beforeBuild : Bool
  beforeUpdate : Bool
  beforeRender : Bool
  afterRender : Bool
  beforeSave : Bool
deriving Repr, DecidableEq

/-- The externally visible steps a build/update cycle performs, in
program order. -/
inductive Action where
  | evBeforeBuild | evAfterBuild | evBeforeUpdate | evAfterUpdate
  | evBeforeRender | evAfterRender | evBeforeSave
  | clearDest | fsInit | sourceBuild | renderPages
  | componentsExtraCode | filterPages | processorsRun
  | savePages | copyFiles
  | searcherDeleteCache | fsUpdate | removeFiles
deriving Repr, DecidableEq

/-- `Site.#buildPages`: dispatch `beforeRender` (stop on `false`), render,
merge component extra code, filter the page set, dispatch `afterRender`
(stop on `false`), run the processors and return the result of
dispatching `beforeSave`. -/
def buildPagesTrace (ev : EventResults) : List Action × Bool :=
  if ev.beforeRender = false then ([.evBeforeRender], false)
  else
    let t := [.evBeforeRender, .renderPages, .componentsExtraCode,
      .filterPages, .evAfterRender]
    if ev.afterRender = false then (t, false)
    else (t ++ [.processorsRun, .evBeforeSave], ev.beforeSave)

/-- `Site.build`: dispatch `beforeBuild` (stop on `false`), optionally
clear the destination, init the fs, scan the source, run `#buildPages`
(stop on `false`), save pages, copy static files, dispatch `afterBuild`. -/
def buildTrace (ev : EventResults) (emptyDest : Bool) : List Action :=
  if ev.beforeBuild = false then [.evBeforeBuild]
  else
    let t := [.evBeforeBuild] ++ (if emptyDest then [.clearDest] else []) ++
      [.fsInit, .sourceBuild]
    let bp := buildPagesTrace ev
    if bp.2 = false then t ++ bp.1
    else t ++ bp.1 ++ [.savePages, .copyFiles, .evAfterBuild]

/-- `Site.update`: dispatch `beforeUpdate` (stop on `false`), clear the
searcher cache, update the fs entries and remove stale outputs, scan the
source, run `#buildPages` (stop on `false`), save pages, copy static
files, dispatch `afterUpdate`. -/
def updateTrace (ev : EventResults) : List Action :=
  if ev.beforeUpdate = false then [.evBeforeUpdate]
  else
    let t := [.evBeforeUpdate, .searcherDeleteCache, .fsUpdate, .removeFiles,
      .sourceBuild]
    let bp := buildPagesTrace ev
    if bp.2 = false then t ++ bp.1
    else t ++ bp.1 ++ [.savePages, .copyFiles, .evAfterUpdate]

/-! ## The page drop filter of `Site.#buildPages` -/

/-- A page's rendered content: a string, binary data (`Uint8Array`), or
`undefined`. -/
inductive Content where
  | str : String → Content
  | bytes : List Nat → Content
  | undef : Content
deriving Repr, DecidableEq

/-- JS falsiness of `page.content`: `undefined` and the empty string are
falsy; a `Uint8Array` is an object and hence truthy even when empty. -/
def contentFalsy : Content → Bool
  | .str s => s == ""
  | .bytes _ => false
  | .undef => true

/-- `page.data.url`: a string, or the explicit `false`. -/
inductive UrlVal where
  | url : String → UrlVal
  | ufalse : UrlVal
deriving Repr, DecidableEq

/-- The page fields the drop filter of `Site.#buildPages` inspects. -/
structure PageC where
  url : UrlVal
  content : Content
  ondemand : Bool
deriving Repr, DecidableEq

/-- `!page.content || page.data.ondemand`. -/
def shouldSkip (p : PageC) : Bool :=
  contentFalsy p.content || p.ondemand

/-- The warning `#buildPages` logs for a skipped page. -/
def skipWarning (p : PageC) : String :=
  let urlStr := match p.url with
    | .url s => s
    | .ufalse => "false"
  let reason := if p.ondemand then "page is build only on demand"
    else "file content is empty"
  "Skipped page " ++ urlStr ++ " (" ++ reason ++ ")"

/-- The drop filter of `Site.#buildPages`: a page with `url === false` is
dropped silently; otherwise a page with falsy content or the `ondemand`
flag is dropped with a warning; the rest are kept.  Returns the kept
pages and the logged warnings. -/
def filterPages : List PageC → List PageC × List String
  | [] => ([], [])
  | p :: rest =>
    let r := filterPages rest
    if p.url == .ufalse then r
    else if shouldSkip p then (r.1, skipWarning p :: r.2)
    else (p :: r.1, r.2)

/-! ## The bounded-concurrency helper `concurrent` (src/utils.js) -/

/-- A control point of an execution of `concurrent`:
`looping` inside the `for await` loop, `racing` suspended on
`Promise.race(executing)`, `finishing` suspended on the final
`Promise.all(executing)`, and `done` after `concurrent` resolved. -/
inductive CPhase where
  | looping | racing | finishing | done
deriving Repr, DecidableEq

/-- The observable state of an execution of `concurrent`: the control
point, the number of started-but-unsettled `iteratorFn` invocations, the
number of items not yet taken from the iterable, and the started/settled
invocation counters. -/
structure CState where
  phase : CPhase
  pending : Nat
  remaining : Nat
  started : Nat
  settled : Nat
deriving Repr, DecidableEq

/-- The initial state: about to iterate `n` items, nothing in flight. -/
def cInit (n : Nat) : CState :=
  ⟨.looping, 0, n, 0, 0⟩

/-- Small-step semantics of `concurrent(iterable, iteratorFn, limit)`.
`push` starts the next item's invocation and, when
`executing.length >= limit`, suspends on `Promise.race`; a pending
invocation may settle (and splice itself out) at any await point; the
race resumes the loop once an invocation settles; after the iterable is
exhausted the final `Promise.all` waits for the rest and `concurrent`
resolves only with nothing pending. -/
inductive CStep (limit : Nat) : CState → CState → Prop
  | push (p r s t : Nat) :
      CStep limit ⟨.looping, p, r + 1, s, t⟩
        ⟨if p + 1 ≥ limit then .racing else .looping, p + 1, r, s + 1, t⟩
  | settleLooping (p r s t : Nat) :
      CStep limit ⟨.looping, p + 1, r, s, t⟩ ⟨.looping, p, r, s, t + 1⟩
  | settleRacing (p r s t : Nat) :
      CStep limit ⟨.racing, p + 1, r, s, t⟩ ⟨.looping, p, r, s, t + 1⟩
  | loopEnd (p s t : Nat) :
      CStep limit ⟨.looping, p, 0, s, t⟩ ⟨.finishing, p, 0, s, t⟩
  | settleFinishing (p r s t : Nat) :
      CStep limit ⟨.finishing, p + 1, r, s, t⟩ ⟨.finishing, p, r, s, t + 1⟩
  | resolve (r s t : Nat) :
      CStep limit ⟨.finishing, 0, r, s, t⟩ ⟨.done, 0, r, s, t⟩

/-- Reachability in the `concurrent` semantics. -/
inductive CReach (limit : Nat) (s0 : CState) : CState → Prop
  | refl : CReach limit s0 s0
  | tail {s s' : CState} : CReach limit s0 s → CStep limit s s' → CReach limit s0 s'

/-! ## Heap-passing model of `merge` (mutation behaviour)

To reason about which objects `merge` mutates, objects and arrays live in
an explicit heap and values hold references into it, mirroring the
JavaScript object graph. -/

/-- A heap value: a primitive, or a reference to a heap node. -/
inductive HVal where
  | num : Int → HVal
  | str : String → HVal
  | bool : Bool → HVal
  | null : HVal
  | ref : Nat → HVal
deriving Repr, DecidableEq

/-- A heap node: a plain object or an array. -/
inductive HNode where
  | obj : List (String × HVal) → HNode
  | arr : List HVal → HNode
deriving Repr, DecidableEq

/-- The heap: nodes addressed by their index. -/
structure Heap where
  nodes : List HNode
deriving Repr, DecidableEq

/-- `typeof v === "object"` on heap values. -/
def hTypeofObject : HVal → Bool
  | .ref _ => true
  | .null => true
  | _ => false

/-- `Array.isArray v` on heap values: a reference to an array node. -/
def hIsArray (h : Heap) : HVal → Bool
  | .ref a =>
    match h.nodes.get? a with
    | some (.arr _) => true
    | _ => false
  | _ => false

/-- JS falsiness of a heap value (objects and arrays are truthy). -/
def hFalsy : HVal → Bool
  | .null => true
  | .bool b => !b
  | .num n => n == 0
  | .str s => s == ""
  | .ref _ => false

/-- The keyed entries a value contributes to spread `{...v}` and to
`Object.entries(v)`: an object node's entries, an array node's
index-keyed entries, a string's index-keyed characters, nothing
otherwise. -/
def hEntries (h : Heap) : HVal → List (String × HVal)
  | .ref a =>
    match h.nodes.get? a with
    | some (.obj kvs) => kvs
    | some (.arr vs) => vs.enum.map (fun iv => (toString iv.1, iv.2))
    | none => []
  | .str s => s.toList.enum.map (fun ic => (toString ic.1, .str (String.singleton ic.2)))
  | _ => []

/-- Allocate a fresh object node holding `entries`; returns the new heap
and the fresh address. -/
def allocObj (h : Heap) (entries : List (String × HVal)) : Heap × Nat :=
  (⟨h.nodes ++ [.obj entries]⟩, h.nodes.length)

/-- Property read `merged[key]` of the object node at address `m`. -/
def getProp (h : Heap) (m : Nat) (key : String) : Option HVal :=
  match h.nodes.get? m with
  | some (.obj kvs) => getKey kvs key
  | _ => none

/-- Property write `merged[key] = v` on the object node at address `m`
(the only writes `merge` performs). -/
def writeProp (h : Heap) (m : Nat) (key : String) (v : HVal) : Heap :=
  match h.nodes.get? m with
  | some (.obj kvs) => ⟨h.nodes.set m (.obj (setKey kvs key v))⟩
  | _ => h

/-- The entries loop of the heap-level `merge`, writing into the freshly
allocated object at `m`; the recursive `merge` call is abstracted by
`rec` (which may fail for lack of fuel). -/
def hMergeGo (rec : Heap → HVal → HVal → Option (Heap × Nat)) :
    Heap → Nat → List (String × HVal) → Option (Heap × Nat)
  | h, m, [] => some (h, m)
  | h, m, (key, value) :: rest =>
    match getProp h m key with
    | some dv =>
      if hTypeofObject dv && hTypeofObject value && !hIsArray h dv then
        match rec h dv value with
        | none => none
        | some (h', a) => hMergeGo rec (writeProp h' m key (.ref a)) m rest
      else hMergeGo rec (writeProp h m key value) m rest
    | none => hMergeGo rec (writeProp h m key value) m rest

/-- Heap-level `merge(defaults, user)`: allocate `merged = {...defaults}`,
return it if `user` is falsy, else run the entries loop.  `fuel` bounds
the recursion depth; `none` means the fuel ran out. -/
def hMerge : Nat → Heap → HVal → HVal → Option (Heap × Nat)
  | 0, _, _, _ => none
  | fuel + 1, h, defaults, user =>
    let am := allocObj h (hEntries h defaults)
    if hFalsy user then some am
    else hMergeGo (hMerge fuel) am.1 am.2 (hEntries am.1 user)

/-! ## Association-list lemmas -/

theorem getKey_setKey_self (l : List (String × β)) (k : String) (v : β) :
    getKey (setKey l k v) k = some v := by
  induction l with
  | nil => simp [setKey, getKey]
  | cons kv rest ih =>
    obtain ⟨k', v'⟩ := kv
    by_cases h : k' = k
    · simp [setKey, getKey, h]
    · simp [setKey, getKey, h, ih]

theorem getKey_setKey_ne (l : List (String × β)) (k k' : String) (v : β)
    (hne : k' ≠ k) : getKey (setKey l k v) k' = getKey l k' := by
  induction l with
  | nil => simp [setKey, getKey, Ne.symm hne]
  | cons kv rest ih =>
    obtain ⟨k0, v0⟩ := kv
    by_cases h : k0 = k
    · subst h
      simp [setKey, getKey, Ne.symm hne]
    · by_cases h' : k0 = k'
      · simp [setKey, getKey, h, h', hne]
      · simp [setKey, getKey, h, h', ih]

theorem getKey_delKey_self (l : List (String × β)) (k : String) :
    getKey (delKey l k) k = none := by
  induction l with
  | nil => simp [delKey, getKey]
  | cons kv rest ih =>
    obtain ⟨k0, v0⟩ := kv
    by_cases h : k0 = k
    · simpa [delKey, h] using ih
    · simpa [delKey, getKey, h] using ih

theorem getKey_eq_none_of_not_mem (l : List (String × β)) (k : String)
    (h : k ∉ l.map Prod.fst) : getKey l k = none := by
  induction l with
  | nil => rfl
  | cons kv rest ih =>
    obtain ⟨k0, v0⟩ := kv
    simp only [List.map_cons, List.mem_cons] at h
    push_neg at h
    simp [getKey, Ne.symm h.1, ih h.2]

/-! ## `Reader.read` lemmas and the cache-coherence claims -/

theorem read_cached (st : Reader) (path : String) (f : Loader)
    (res : LoadOutcome)
    (h : getKey st.cache (st.getFullPath path) = some res) :
    st.read path f = (wrapExc res (st.getFullPath path), st, false) := by
  unfold Reader.read
  simp [h]

theorem read_miss (st : Reader) (path : String) (f : Loader)
    (h : getKey st.cache (st.getFullPath path) = none) :
    st.read path f =
      (wrapExc (f (st.loadPath path)) (st.getFullPath path),
       { st with cache := setKey st.cache (st.getFullPath path) (f (st.loadPath path)) },
       true) := by
  unfold Reader.read
  simp [h]

theorem getFullPath_setCache (st : Reader) (c : List (String × LoadOutcome))
    (path : String) :
    Reader.getFullPath { st with cache := c } path = st.getFullPath path := rfl

theorem readN_cached (st : Reader) (path : String) (f : Loader)
    (res : LoadOutcome)
    (h : getKey st.cache (st.getFullPath path) = some res) (n : Nat) :
    st.readN path f n =
      (List.replicate n (wrapExc res (st.getFullPath path)), st, 0) := by
  induction n with
  | zero => simp [Reader.readN]
  | succ n ih =>
    simp [Reader.readN, read_cached st path f res h, ih, List.replicate]

/-- Claim C1 (cache coherence of the virtual file layer): starting from a
state whose cache slot for `path` is empty, any number of repeated
`read(path, loader)` calls invoke the loader exactly once and all return
the first call's value; after `deleteCache(path)` the next read invokes
the loader again. -/
theorem reader_cache_coherence (st : Reader) (path : String) (f : Loader)
    (n : Nat)
    (hfresh : getKey st.cache (st.getFullPath path) = none) :
    (st.readN path f (n + 1)).2.2 = 1 ∧
    (∀ r ∈ (st.readN path f (n + 1)).1, r = (st.read path f).1) ∧
    (((st.readN path f (n + 1)).2.1.deleteCache path).read path f).2.2
      = true := by
  have hmiss := read_miss st path f hfresh
  set st1 : Reader :=
    { st with cache := setKey st.cache (st.getFullPath path) (f (st.loadPath path)) } with hst1
  have hfp1 : st1.getFullPath path = st.getFullPath path := rfl
  have hc1 : getKey st1.cache (st1.getFullPath path)
      = some (f (st.loadPath path)) := by
    simp [hst1, hfp1, getKey_setKey_self]
  have hN := readN_cached st1 path f _ hc1 n
  have hunfold : st.readN path f (n + 1) =
      ((st.read path f).1 :: (st1.readN path f n).1,
       (st1.readN path f n).2.1,
       (if (st.read path f).2.2 then 1 else 0) + (st1.readN path f n).2.2) := by
    simp [Reader.readN, hmiss]
  refine ⟨?_, ?_, ?_⟩
  · simp [hunfold, hmiss, hN]
  · intro r hr
    rw [hunfold] at hr
    rcases List.mem_cons.mp hr with h | h
    · exact h
    · rw [hN] at h
      have := List.eq_of_mem_replicate h
      rw [this, hfp1, hmiss]
  · rw [hunfold]
    simp only [hN]
    have hdel : getKey (st1.deleteCache path).cache
        ((st1.deleteCache path).getFullPath path) = none :=
      getKey_delKey_self st1.cache (st1.getFullPath path)
    rw [read_miss _ path f hdel]

/-- Witness for `reader_cache_coherence` at a concrete state. -/
theorem reader_cache_coherence_witness :
    getKey (Reader.mk "/src" [] [] []).cache
      ((Reader.mk "/src" [] [] []).getFullPath "/x") = none ∧
    ((Reader.mk "/src" [] [] []).readN "/x" (fun _ => .ok "A") 3).2.2 = 1 :=
  ⟨rfl,
   (reader_cache_coherence (Reader.mk "/src" [] [] []) "/x"
     (fun _ => .ok "A") 2 rfl).1⟩

/-- Claim C2, counterexample: the cache is keyed by the full path
alone, not by `(path, loader-function-identity)`.  With loader `f`
returning `"A"` and a distinct loader `g` returning `"B"`, the second
read returns `f`'s cached value `"A"` and never invokes `g`. -/
theorem reader_cache_loader_keyed_counterexample :
    (((Reader.mk "/src" [] [] []).read "/x" (fun _ => .ok "A")).2.1.read "/x"
        (fun _ => .ok "B")).1 = .ok "A" ∧
    (((Reader.mk "/src" [] [] []).read "/x" (fun _ => .ok "A")).2.1.read "/x"
        (fun _ => .ok "B")).2.2 = false :=
  ⟨rfl, rfl⟩

/-- Claim C2, amended: the read cache is keyed by the full path alone;
while a cache slot for `path` is live, a read with any loader returns
the slot's value without invoking that loader — two distinct loaders do
not get independent slots. -/
theorem reader_cache_keyed_by_path_only (st : Reader) (path : String)
    (f g : Loader)
    (hlive : (getKey st.cache (st.getFullPath path)).isSome = true) :
    st.read path f = st.read path g ∧ (st.read path g).2.2 = false := by
  obtain ⟨res, hres⟩ := Option.isSome_iff_exists.mp hlive
  rw [read_cached st path f res hres, read_cached st path g res hres]
  exact ⟨rfl, rfl⟩

/-- Witness for `reader_cache_keyed_by_path_only`. -/
theorem reader_cache_keyed_by_path_only_witness :
    ((Reader.mk "/s" [("/s/x", Except.ok "A")] [] []).read "/x"
        (fun _ => .ok "B")).2.2 = false :=
  (reader_cache_keyed_by_path_only (Reader.mk "/s" [("/s/x", Except.ok "A")] [] [])
    "/x" (fun _ => .ok "C") (fun _ => .ok "B") (by rfl)).2

/-! ## The load-failure exception (claim C8) -/

/-- Claim C8, counterexample: with a remote shadow active at the path,
the load is attempted at the remote URL, yet the thrown exception
carries the *local* full path `"/src/x"`, not the remote URL the claim
requires. -/
theorem read_failure_path_counterexample :
    (Reader.mk "/src" [] [("/src/x", ⟨"https://remote/x", "/x", false⟩)]
      []).loadPath "/x" = "https://remote/x" ∧
    ((Reader.mk "/src" [] [("/src/x", ⟨"https://remote/x", "/x", false⟩)]
        []).read "/x" (fun _ => .error "boom")).1 =
      .error ⟨"Couldn't load this file", "boom", "/src/x"⟩ ∧
    "/src/x" ≠ "https://remote/x" :=
  ⟨rfl, rfl, by decide⟩

/-- Claim C8, amended: when the loader fails at the resolved load
location, `read` throws an `Exception` whose cause is the original error
and whose path datum is always the local full path (even when the load
was attempted at a remote URL). -/
theorem read_failure_exception (st : Reader) (path : String) (f : Loader)
    (cause : String)
    (hfresh : getKey st.cache (st.getFullPath path) = none)
    (hfail : f (st.loadPath path) = .error cause) :
    (st.read path f).1 =
      .error ⟨"Couldn't load this file", cause, st.getFullPath path⟩ := by
  rw [read_miss st path f hfresh]
  simp [hfail, wrapExc]

/-- Witness for `read_failure_exception`. -/
theorem read_failure_exception_witness :
    ((Reader.mk "/src" [] [] []).read "/x" (fun _ => .error "nope")).1 =
      .error ⟨"Couldn't load this file", "nope",
        (Reader.mk "/src" [] [] []).getFullPath "/x"⟩ :=
  read_failure_exception (Reader.mk "/src" [] [] []) "/x"
    (fun _ => .error "nope") "nope" rfl rfl

/-! ## `Reader.getInfo` and remote shadowing (claim C3) -/

theorem getKey_updateDisabled (l : List (String × RemoteFile)) (key : String)
    (b : Bool) :
    getKey (l.map (fun kv =>
        if kv.1 = key then (kv.1, { kv.2 with disabled := b }) else kv)) key
      = (getKey l key).map (fun r => { r with disabled := b }) := by
  induction l with
  | nil => simp [getKey]
  | cons kv rest ih =>
    obtain ⟨k0, r0⟩ := kv
    simp only [List.map_cons]
    by_cases h : k0 = key
    · subst h
      rw [if_pos rfl]
      simp [getKey]
    · rw [if_neg h]
      simp [getKey, h, ih]

/-- Claim C3 (remote shadowing): `getInfo` consults the local filesystem
first; a local hit returns the local info and disables a registered
remote file; on `NotFound` a registered remote file is re-enabled and
synthetic zero-size file info is returned (directory info when only a
remote directory is registered); with neither registered, `undefined`
is returned. -/
theorem getInfo_remote_shadowing (st : Reader) (fs : String → StatRes)
    (path : String) :
    (∀ info, fs (st.getFullPath path) = .found info →
      (st.getInfo fs path).1 = .ok (some info) ∧
      (∀ r, getKey st.remoteFiles (st.getFullPath path) = some r →
        getKey (st.getInfo fs path).2.remoteFiles (st.getFullPath path) =
          some { r with disabled := true })) ∧
    (∀ r, fs (st.getFullPath path) = .notFound →
      getKey st.remoteFiles (st.getFullPath path) = some r →
      (st.getInfo fs path).1 = .ok (some ⟨true, false, false, 0, none⟩) ∧
      getKey (st.getInfo fs path).2.remoteFiles (st.getFullPath path) =
        some { r with disabled := false }) ∧
    (fs (st.getFullPath path) = .notFound →
      getKey st.remoteFiles (st.getFullPath path) = none →
      st.remoteDirectories.contains (st.getFullPath path) = true →
      st.getInfo fs path = (.ok (some ⟨false, true, false, 0, none⟩), st)) ∧
    (fs (st.getFullPath path) = .notFound →
      getKey st.remoteFiles (st.getFullPath path) = none →
      st.remoteDirectories.contains (st.getFullPath path) = false →
      st.getInfo fs path = (.ok none, st)) := by
  refine ⟨?_, ?_, ?_, ?_⟩
  · intro info hfs
    constructor
    · simp [Reader.getInfo, hfs]
    · intro r hr
      simp [Reader.getInfo, hfs, hr, Reader.setRemoteDisabled,
        getKey_updateDisabled, Option.isSome]
  · intro r hfs hr
    constructor
    · simp [Reader.getInfo, hfs, hr, Option.isSome]
    · simp [Reader.getInfo, hfs, hr, Reader.setRemoteDisabled,
        getKey_updateDisabled, Option.isSome]
  · intro hfs hr hd
    have hd' : st.getFullPath path ∈ st.remoteDirectories := by simpa using hd
    simp [Reader.getInfo, hfs, hr, hd', Option.isSome]
  · intro hfs hr hd
    have hd' : st.getFullPath path ∉ st.remoteDirectories := by simpa using hd
    simp [Reader.getInfo, hfs, hr, hd', Option.isSome]

/-- Witness for `getInfo_remote_shadowing`, exercising all four branches
at concrete states: a registered remote file at `/s/a.html`, a remote
directory at `/s/dir`, and a path with neither. -/
theorem getInfo_remote_shadowing_witness :
    ((Reader.mk "/s" [] [("/s/a.html", ⟨"https://r/a", "/a.html", false⟩)]
        ["/s/dir"]).getInfo (fun _ => .found ⟨true, false, false, 7, none⟩)
        "/a.html").1 = .ok (some ⟨true, false, false, 7, none⟩) ∧
    getKey ((Reader.mk "/s" [] [("/s/a.html", ⟨"https://r/a", "/a.html", false⟩)]
        ["/s/dir"]).getInfo (fun _ => .found ⟨true, false, false, 7, none⟩)
        "/a.html").2.remoteFiles "/s/a.html" =
      some ⟨"https://r/a", "/a.html", true⟩ ∧
    ((Reader.mk "/s" [] [("/s/a.html", ⟨"https://r/a", "/a.html", true⟩)]
        ["/s/dir"]).getInfo (fun _ => .notFound) "/a.html").1 =
      .ok (some ⟨true, false, false, 0, none⟩) ∧
    getKey ((Reader.mk "/s" [] [("/s/a.html", ⟨"https://r/a", "/a.html", true⟩)]
        ["/s/dir"]).getInfo (fun _ => .notFound) "/a.html").2.remoteFiles
        "/s/a.html" = some ⟨"https://r/a", "/a.html", false⟩ ∧
    ((Reader.mk "/s" [] [] ["/s/dir"]).getInfo (fun _ => .notFound) "/dir") =
      (.ok (some ⟨false, true, false, 0, none⟩), Reader.mk "/s" [] [] ["/s/dir"]) ∧
    ((Reader.mk "/s" [] [] []).getInfo (fun _ => .notFound) "/none") =
      (.ok none, Reader.mk "/s" [] [] []) := by
  refine ⟨?_, ?_, ?_, ?_, ?_, ?_⟩
  · exact ((getInfo_remote_shadowing
      (Reader.mk "/s" [] [("/s/a.html", ⟨"https://r/a", "/a.html", false⟩)]
        ["/s/dir"]) (fun _ => .found ⟨true, false, false, 7, none⟩)
      "/a.html").1 ⟨true, false, false, 7, none⟩ rfl).1
  · exact ((getInfo_remote_shadowing
      (Reader.mk "/s" [] [("/s/a.html", ⟨"https://r/a", "/a.html", false⟩)]
        ["/s/dir"]) (fun _ => .found ⟨true, false, false, 7, none⟩)
      "/a.html").1 ⟨true, false, false, 7, none⟩ rfl).2
      ⟨"https://r/a", "/a.html", false⟩ rfl
  · exact ((getInfo_remote_shadowing
      (Reader.mk "/s" [] [("/s/a.html", ⟨"https://r/a", "/a.html", true⟩)]
        ["/s/dir"]) (fun _ => .notFound) "/a.html").2.1
      ⟨"https://r/a", "/a.html", true⟩ rfl rfl).1
  · exact ((getInfo_remote_shadowing
      (Reader.mk "/s" [] [("/s/a.html", ⟨"https://r/a", "/a.html", true⟩)]
        ["/s/dir"]) (fun _ => .notFound) "/a.html").2.1
      ⟨"https://r/a", "/a.html", true⟩ rfl rfl).2
  · exact (getInfo_remote_shadowing (Reader.mk "/s" [] [] ["/s/dir"])
      (fun _ => .notFound) "/dir").2.2.1 rfl rfl (by decide)
  · exact (getInfo_remote_shadowing (Reader.mk "/s" [] [] [])
      (fun _ => .notFound) "/none").2.2.2 rfl rfl (by decide)

/-! ## Pointwise characterisation of `merge` (claim C5) -/

theorem getKey_mergeStep_ne (rec : JVal → JVal → JVal)
    (merged : List (String × JVal)) (kv : String × JVal) (key : String)
    (hne : key ≠ kv.1) :
    getKey (mergeStep rec merged kv) key = getKey merged key := by
  unfold mergeStep
  cases getKey merged kv.1 with
  | none => exact getKey_setKey_ne merged kv.1 key kv.2 hne
  | some dv =>
    by_cases hc : (jsTypeofObject dv && jsTypeofObject kv.2 && !jsIsArray dv) = true
    · simp [hc, getKey_setKey_ne merged kv.1 key _ hne]
    · simp [hc, getKey_setKey_ne merged kv.1 key _ hne]

theorem getKey_mergeStep_self (rec : JVal → JVal → JVal)
    (merged : List (String × JVal)) (kv : String × JVal) :
    getKey (mergeStep rec merged kv) kv.1 =
      some (match getKey merged kv.1 with
        | some dv =>
          if jsTypeofObject dv && jsTypeofObject kv.2 && !jsIsArray dv then
            rec dv kv.2
          else kv.2
        | none => kv.2) := by
  unfold mergeStep
  cases getKey merged kv.1 with
  | none => simp [getKey_setKey_self]
  | some dv =>
    by_cases hc : (jsTypeofObject dv && jsTypeofObject kv.2 && !jsIsArray dv) = true
    · simp [hc, getKey_setKey_self]
    · simp [hc, getKey_setKey_self]

/-- What the entries loop of `merge` leaves at each key, provided the
user object has no duplicate keys (as JavaScript objects guarantee). -/
theorem getKey_mergeGo (rec : JVal → JVal → JVal)
    (us : List (String × JVal)) (merged : List (String × JVal)) (key : String)
    (hnd : (us.map Prod.fst).Nodup) :
    getKey (mergeGo rec merged us) key =
      (match getKey us key with
        | none => getKey merged key
        | some uv =>
          some (match getKey merged key with
            | some dv =>
              if jsTypeofObject dv && jsTypeofObject uv && !jsIsArray dv then
                rec dv uv
              else uv
            | none => uv)) := by
  induction us generalizing merged with
  | nil => simp [mergeGo, getKey]
  | cons kv rest ih =>
    obtain ⟨k0, v0⟩ := kv
    simp only [List.map_cons, List.nodup_cons] at hnd
    by_cases h : k0 = key
    · subst h
      have hrest : getKey rest k0 = none :=
        getKey_eq_none_of_not_mem rest k0 hnd.1
      rw [mergeGo, ih _ hnd.2, hrest]
      simp only [getKey, if_pos rfl]
      exact getKey_mergeStep_self rec merged (k0, v0)
    · rw [mergeGo, ih _ hnd.2]
      have hstep := getKey_mergeStep_ne rec merged (k0, v0) key (Ne.symm h)
      rw [hstep]
      simp only [getKey, if_neg h]

/-- Claim C5, amended semantics of `merge(defaults, user)` for objects
whose keys are unique: keys absent from `user` keep the defaults' value;
a non-object user value always wins; two nested objects deep-merge; a
user array replaces the defaults' value when the defaults hold nothing,
a scalar, or an array at that key — but when the defaults hold a
non-array object (or `null`) there, the array is merged entrywise into
it instead of replacing it. -/
theorem merge_pointwise (fuel : Nat) (ds us : List (String × JVal))
    (key : String) (hnd : (us.map Prod.fst).Nodup) :
    (getKey us key = none →
      objLookup (merge (fuel + 1) (.obj ds) (.obj us)) key = getKey ds key) ∧
    (∀ uv, getKey us key = some uv → jsTypeofObject uv = false →
      objLookup (merge (fuel + 1) (.obj ds) (.obj us)) key = some uv) ∧
    (∀ dkvs ukvs, getKey ds key = some (.obj dkvs) →
      getKey us key = some (.obj ukvs) →
      objLookup (merge (fuel + 1) (.obj ds) (.obj us)) key =
        some (merge fuel (.obj dkvs) (.obj ukvs))) ∧
    (∀ vs, getKey us key = some (.arr vs) →
      (getKey ds key = none ∨
       (∃ dv, getKey ds key = some dv ∧
         (jsTypeofObject dv = false ∨ jsIsArray dv = true))) →
      objLookup (merge (fuel + 1) (.obj ds) (.obj us)) key = some (.arr vs)) ∧
    (∀ vs dv, getKey us key = some (.arr vs) → getKey ds key = some dv →
      jsTypeofObject dv = true → jsIsArray dv = false →
      objLookup (merge (fuel + 1) (.obj ds) (.obj us)) key =
        some (merge fuel dv (.arr vs))) := by
  have hmain : objLookup (merge (fuel + 1) (.obj ds) (.obj us)) key =
      (match getKey us key with
        | none => getKey ds key
        | some uv =>
          some (match getKey ds key with
            | some dv =>
              if jsTypeofObject dv && jsTypeofObject uv && !jsIsArray dv then
                merge fuel dv uv
              else uv
            | none => uv)) := by
    have : merge (fuel + 1) (.obj ds) (.obj us) =
        .obj (mergeGo (merge fuel) ds us) := by
      simp [merge, jsFalsy, jsEntries]
    rw [this]
    exact getKey_mergeGo (merge fuel) us ds key hnd
  refine ⟨?_, ?_, ?_, ?_, ?_⟩
  · intro h
    rw [hmain, h]
  · intro uv huv htyp
    rw [hmain, huv]
    cases hds : getKey ds key with
    | none => simp
    | some dv => simp [htyp]
  · intro dkvs ukvs hds hus
    rw [hmain, hus, hds]
    simp [jsTypeofObject, jsIsArray]
  · intro vs hus hds
    rw [hmain, hus]
    rcases hds with h | ⟨dv, hdv, hcase⟩
    · rw [h]
    · rw [hdv]
      rcases hcase with h1 | h1
      · simp [h1]
      · simp [h1]
  · intro vs dv hus hds htyp harr
    rw [hmain, hus, hds]
    have hc : (jsTypeofObject dv && jsTypeofObject (JVal.arr vs)
        && !jsIsArray dv) = true := by
      rw [htyp, harr]
      rfl
    simp [hc]

/-- Witness for `merge_pointwise`: with `defaults = {a: [1], b: 1}` and
`user = {a: [2], c: {d: 3}}`, the user's array replaces the defaults'
array and untouched keys keep their defaults. -/
theorem merge_pointwise_witness :
    objLookup (merge 1 (.obj [("a", .arr [.num 1]), ("b", .num 1)])
      (.obj [("a", .arr [.num 2]), ("c", .obj [("d", .num 3)])])) "a" =
      some (.arr [.num 2]) ∧
    objLookup (merge 1 (.obj [("a", .arr [.num 1]), ("b", .num 1)])
      (.obj [("a", .arr [.num 2]), ("c", .obj [("d", .num 3)])])) "b" =
      some (.num 1) :=
  ⟨(merge_pointwise 0 [("a", .arr [.num 1]), ("b", .num 1)]
      [("a", .arr [.num 2]), ("c", .obj [("d", .num 3)])] "a"
      (by decide)).2.2.2.1 [.num 2] rfl
      (Or.inr ⟨.arr [.num 1], rfl, Or.inr rfl⟩),
   (merge_pointwise 0 [("a", .arr [.num 1]), ("b", .num 1)]
      [("a", .arr [.num 2]), ("c", .obj [("d", .num 3)])] "b"
      (by decide)).1 rfl⟩

/-- Claim C5, counterexample: for `defaults = {a: {x: 1}}` and
`user = {a: [2]}` the user's array does *not* replace the defaults'
value; `typeof [] === "object"` makes `merge` recurse, merging the
array's index entries into the object, yielding `{x: 1, "0": 2}`. -/
theorem merge_array_replace_counterexample :
    objLookup (merge 2 (.obj [("a", .obj [("x", .num 1)])])
      (.obj [("a", .arr [.num 2])])) "a" =
      some (.obj [("x", .num 1), ("0", .num 2)]) ∧
    objLookup (merge 2 (.obj [("a", .obj [("x", .num 1)])])
      (.obj [("a", .arr [.num 2])])) "a" ≠ some (.arr [.num 2]) := by
  refine ⟨rfl, ?_⟩
  intro h
  rw [show objLookup (merge 2 (.obj [("a", .obj [("x", .num 1)])])
      (.obj [("a", .arr [.num 2])])) "a" =
      some (.obj [("x", .num 1), ("0", .num 2)]) from rfl] at h
  injection h with h'
  exact JVal.noConfusion h'

/-! ## `searchByExtension` (claim C7) -/

/-- Claim C7, counterexample: `searchByExtension` returns the first
registered extension that is a suffix, not the longest one.  With
`.html` registered before `.tmpl.html`, the path `page.tmpl.html`
matches `.html` even though the longer `.tmpl.html` is also a suffix. -/
theorem searchByExtension_longest_counterexample :
    searchByExtension "page.tmpl.html" [(".html", 1), (".tmpl.html", 2)] =
      some (".html", 1) ∧
    jsEndsWith "page.tmpl.html" ".tmpl.html" = true ∧
    ".html".length < ".tmpl.html".length := by
  refine ⟨by decide, by decide, by decide⟩

/-- Claim C7, amended: `searchByExtension` returns the *first* registered
row (in registration-iteration order) whose extension is a suffix of the
path, and `none` exactly when no registered extension is a suffix. -/
theorem searchByExtension_first_match (path : String)
    (exts : List (String × α)) :
    searchByExtension path exts =
      exts.find? (fun kv => jsEndsWith path kv.1) ∧
    (searchByExtension path exts = none ↔
      ∀ kv ∈ exts, jsEndsWith path kv.1 = false) := by
  have hfind : searchByExtension path exts =
      exts.find? (fun kv => jsEndsWith path kv.1) := by
    induction exts with
    | nil => rfl
    | cons kv rest ih =>
      obtain ⟨k, v⟩ := kv
      by_cases h : jsEndsWith path k = true
      · simp [searchByExtension, List.find?, h]
      · simp only [Bool.not_eq_true] at h
        simp [searchByExtension, List.find?, h, ih]
  refine ⟨hfind, ?_⟩
  rw [hfind, List.find?_eq_none]
  constructor
  · intro h kv hm
    have := h kv hm
    simpa using this
  · intro h kv hm
    simp [h kv hm]

/-! ## Cancellation of a build/update cycle (claim C4) -/

/-- Claim C4 (cancellation): when a `beforeRender` listener returns the
cancellation signal (dispatch reports `false`), neither `savePages` nor
`copyFiles` runs and neither `afterRender` nor `afterBuild`/`afterUpdate`
is dispatched, in both the build and the update cycle. -/
theorem beforeRender_cancellation (ev : EventResults) (emptyDest : Bool)
    (h : ev.beforeRender = false) :
    Action.savePages ∉ buildTrace ev emptyDest ∧
    Action.copyFiles ∉ buildTrace ev emptyDest ∧
    Action.evAfterRender ∉ buildTrace ev emptyDest ∧
    Action.evAfterBuild ∉ buildTrace ev emptyDest ∧
    Action.savePages ∉ updateTrace ev ∧
    Action.copyFiles ∉ updateTrace ev ∧
    Action.evAfterRender ∉ updateTrace ev ∧
    Action.evAfterUpdate ∉ updateTrace ev := by
  have hbp : buildPagesTrace ev = ([.evBeforeRender], false) := by
    simp [buildPagesTrace, h]
  cases hbb : ev.beforeBuild <;> cases hbu : ev.beforeUpdate <;>
    cases hed : emptyDest <;>
      simp [buildTrace, updateTrace, hbp, hbb, hbu, hed]

/-- Witness for `beforeRender_cancellation`. -/
theorem beforeRender_cancellation_witness :
    (EventResults.mk true true false true true).beforeRender = false ∧
    Action.savePages ∉ buildTrace (EventResults.mk true true false true true) true :=
  ⟨rfl, (beforeRender_cancellation (EventResults.mk true true false true true)
    true rfl).1⟩

/-! ## The drop policy of `Site.#buildPages` (claim C6) -/

/-- Claim C6, counterexample: a page whose rendered content is an empty
`Uint8Array` has empty rendered content, yet is *kept* (an object is
truthy in JS regardless of its length) and no warning is logged; a page
with `url === false` is dropped but silently. -/
theorem drop_policy_counterexample :
    filterPages [⟨.ufalse, .str "", false⟩, ⟨.url "/a/", .bytes [], false⟩] =
      ([⟨.url "/a/", .bytes [], false⟩], []) ∧
    contentFalsy (.bytes []) = false := by
  exact ⟨by decide, rfl⟩

/-- Claim C6, amended: after the drop filter, no surviving page has
`url === false`, falsy content (`undefined` or the empty string), or the
`ondemand` flag; every surviving page comes from the input; and every
dropped page that was not a `url === false` page gets a logged warning
naming the reason.  (A page whose content is an empty `Uint8Array` is
truthy and therefore kept.) -/
theorem drop_policy (ps : List PageC) :
    (∀ p ∈ (filterPages ps).1,
      p.url ≠ .ufalse ∧ contentFalsy p.content = false ∧ p.ondemand = false) ∧
    (∀ p ∈ (filterPages ps).1, p ∈ ps) ∧
    (∀ p ∈ ps, p.url ≠ .ufalse → shouldSkip p = true →
      skipWarning p ∈ (filterPages ps).2) := by
  induction ps with
  | nil => simp [filterPages]
  | cons p rest ih =>
    by_cases hu : p.url = .ufalse
    · have hfp : filterPages (p :: rest) = filterPages rest := by
        simp [filterPages, hu]
      refine ⟨?_, ?_, ?_⟩
      · intro q hq
        rw [hfp] at hq
        exact ih.1 q hq
      · intro q hq
        rw [hfp] at hq
        exact List.mem_cons_of_mem p (ih.2.1 q hq)
      · intro q hq hqu hqs
        rcases List.mem_cons.mp hq with rfl | hq'
        · exact absurd hu hqu
        · rw [hfp]
          exact ih.2.2 q hq' hqu hqs
    · by_cases hs : shouldSkip p = true
      · have hfp : filterPages (p :: rest) =
            ((filterPages rest).1, skipWarning p :: (filterPages rest).2) := by
          simp [filterPages, hu, hs]
        refine ⟨?_, ?_, ?_⟩
        · intro q hq
          rw [hfp] at hq
          exact ih.1 q hq
        · intro q hq
          rw [hfp] at hq
          exact List.mem_cons_of_mem p (ih.2.1 q hq)
        · intro q hq hqu hqs
          rw [hfp]
          rcases List.mem_cons.mp hq with rfl | hq'
          · exact List.mem_cons_self _ _
          · exact List.mem_cons_of_mem _ (ih.2.2 q hq' hqu hqs)
      · have hfp : filterPages (p :: rest) =
            (p :: (filterPages rest).1, (filterPages rest).2) := by
          simp [filterPages, hu, hs]
        have hsf : shouldSkip p = false := by
          simpa using hs
        refine ⟨?_, ?_, ?_⟩
        · intro q hq
          rw [hfp] at hq
          rcases List.mem_cons.mp hq with rfl | hq'
          · refine ⟨hu, ?_, ?_⟩
            · have := hsf
              unfold shouldSkip at this
              exact (Bool.or_eq_false_iff.mp this).1
            · have := hsf
              unfold shouldSkip at this
              exact (Bool.or_eq_false_iff.mp this).2
          · exact ih.1 q hq'
        · intro q hq
          rw [hfp] at hq
          rcases List.mem_cons.mp hq with rfl | hq'
          · exact List.mem_cons_self _ _
          · exact List.mem_cons_of_mem p (ih.2.1 q hq')
        · intro q hq hqu hqs
          rw [hfp]
          rcases List.mem_cons.mp hq with rfl | hq'
          · exact absurd hqs (by simp [hsf])
          · exact ih.2.2 q hq' hqu hqs

/-- Witness for `drop_policy` on a concrete page list: the kept page is
content-bearing and the `ondemand` page's warning is logged. -/
theorem drop_policy_witness :
    (⟨.url "/keep/", .str "hi", false⟩ : PageC).url ≠ .ufalse ∧
    skipWarning ⟨.url "/lazy/", .str "x", true⟩ ∈
      (filterPages [⟨.url "/keep/", .str "hi", false⟩,
        ⟨.url "/lazy/", .str "x", true⟩]).2 :=
  ⟨((drop_policy [⟨.url "/keep/", .str "hi", false⟩,
      ⟨.url "/lazy/", .str "x", true⟩]).1
      ⟨.url "/keep/", .str "hi", false⟩ (by decide)).1,
   (drop_policy [⟨.url "/keep/", .str "hi", false⟩,
      ⟨.url "/lazy/", .str "x", true⟩]).2.2
      ⟨.url "/lazy/", .str "x", true⟩ (by decide) (by decide) rfl⟩

/-! ## Bounded concurrency of `concurrent` (claim C9) -/

/-- The inductive invariant of an execution of `concurrent`: the counters
balance, at most `limit` invocations are pending, strictly fewer while
the loop is executing between awaits, and nothing is pending once
`concurrent` has resolved. -/
theorem concurrent_invariant (limit n : Nat) (hpos : 1 ≤ limit) (s : CState)
    (hr : CReach limit (cInit n) s) :
    s.started = s.settled + s.pending ∧ s.pending ≤ limit ∧
    (s.phase = .looping → s.pending < limit) ∧
    (s.phase = .done → s.pending = 0) := by
  induction hr with
  | refl =>
    refine ⟨rfl, ?_, fun _ => ?_, fun _ => rfl⟩
    · show 0 ≤ limit
      omega
    · show 0 < limit
      omega
  | tail _ hstep ih =>
    have h1 := ih.1
    have h2 := ih.2.1
    have h3 := ih.2.2.1
    have h4 := ih.2.2.2
    cases hstep with
    | push p r a b =>
      have ha : a = b + p := h1
      have hp : p < limit := h3 rfl
      refine ⟨?_, ?_, ?_, ?_⟩
      · show a + 1 = b + (p + 1)
        omega
      · show p + 1 ≤ limit
        omega
      · intro hphase
        show p + 1 < limit
        by_cases hc : p + 1 ≥ limit
        · have hph : (if p + 1 ≥ limit then CPhase.racing else CPhase.looping)
              = CPhase.looping := hphase
          rw [if_pos hc] at hph
          exact absurd hph (by decide)
        · omega
      · intro hphase
        have hph : (if p + 1 ≥ limit then CPhase.racing else CPhase.looping)
            = CPhase.done := hphase
        by_cases hc : p + 1 ≥ limit
        · rw [if_pos hc] at hph
          exact absurd hph (by decide)
        · rw [if_neg hc] at hph
          exact absurd hph (by decide)
    | settleLooping p r a b =>
      have ha : a = b + (p + 1) := h1
      have hp : p + 1 < limit := h3 rfl
      exact ⟨by show a = b + 1 + p; omega, by show p ≤ limit; omega,
        fun _ => by show p < limit; omega,
        fun hph => by simp at hph⟩
    | settleRacing p r a b =>
      have ha : a = b + (p + 1) := h1
      have hp : p + 1 ≤ limit := h2
      exact ⟨by show a = b + 1 + p; omega, by show p ≤ limit; omega,
        fun _ => by show p < limit; omega,
        fun hph => by simp at hph⟩
    | loopEnd p a b =>
      have ha : a = b + p := h1
      have hp : p < limit := h3 rfl
      exact ⟨ha, by show p ≤ limit; omega,
        fun hph => by simp at hph,
        fun hph => by simp at hph⟩
    | settleFinishing p r a b =>
      have ha : a = b + (p + 1) := h1
      have hp : p + 1 ≤ limit := h2
      exact ⟨by show a = b + 1 + p; omega, by show p ≤ limit; omega,
        fun hph => by simp at hph,
        fun hph => by simp at hph⟩
    | resolve r a b =>
      have ha : a = b + 0 := h1
      exact ⟨ha, by show 0 ≤ limit; omega,
        fun hph => by simp at hph, fun _ => rfl⟩

/-- Claim C9 (bounded concurrency): in every state an execution of
`concurrent(iterable, iteratorFn, limit)` with a positive limit can
reach, at most `limit` invocations of `iteratorFn` are simultaneously
pending, and when `concurrent` resolves every started invocation has
settled. -/
theorem concurrent_bounded (limit n : Nat) (hpos : 1 ≤ limit) (s : CState)
    (hr : CReach limit (cInit n) s) :
    s.pending ≤ limit ∧ (s.phase = .done → s.settled = s.started) := by
  obtain ⟨h1, h2, _, h4⟩ := concurrent_invariant limit n hpos s hr
  refine ⟨h2, fun hd => ?_⟩
  have h0 := h4 hd
  omega

/-- Witness for `concurrent_bounded`: the default limit 200, five items,
one invocation started. -/
theorem concurrent_bounded_witness :
    1 ≤ 200 ∧
    (CState.mk .looping 1 4 1 0).pending ≤ 200 :=
  ⟨by decide,
   (concurrent_bounded 200 5 (by decide) (CState.mk .looping 1 4 1 0)
     (CReach.tail (CReach.refl) (CStep.push 0 4 0 0))).1⟩

/-! ## `merge` never mutates its arguments (claim C10) -/

theorem writeProp_length (h : Heap) (m : Nat) (key : String) (v : HVal) :
    (writeProp h m key v).nodes.length = h.nodes.length := by
  unfold writeProp
  cases hg : h.nodes.get? m with
  | none => rfl
  | some node =>
    cases node with
    | obj kvs => simp
    | arr vs => rfl

theorem take_set_of_le (l : List γ) (m N : Nat) (a : γ) (hle : N ≤ m) :
    (l.set m a).take N = l.take N := by
  induction l generalizing m N with
  | nil => simp
  | cons x xs ih =>
    cases m with
    | zero =>
      cases N with
      | zero => simp
      | succ N' => omega
    | succ m' =>
      cases N with
      | zero => simp
      | succ N' =>
        simp only [List.set_cons_succ, List.take_succ_cons]
        rw [ih m' N' (by omega)]

theorem writeProp_take (h : Heap) (m N : Nat) (key : String) (v : HVal)
    (hle : N ≤ m) :
    (writeProp h m key v).nodes.take N = h.nodes.take N := by
  unfold writeProp
  cases hg : h.nodes.get? m with
  | none => rfl
  | some node =>
    cases node with
    | obj kvs => exact take_set_of_le h.nodes m N _ hle
    | arr vs => rfl

theorem getProp_lt (h : Heap) (m : Nat) (key : String) (dv : HVal)
    (hg : getProp h m key = some dv) : m < h.nodes.length := by
  unfold getProp at hg
  cases hn : h.nodes.get? m with
  | none => rw [hn] at hg; cases hg
  | some node => exact (List.get?_eq_some.mp hn).1

/-- Frame property of the entries loop: running it only grows the heap
and leaves every node below `m` (in particular, every node that existed
before the enclosing `merge` call) untouched. -/
theorem hMergeGo_frame
    (rec : Heap → HVal → HVal → Option (Heap × Nat))
    (hrec : ∀ h d u out, rec h d u = some out →
      h.nodes.length ≤ out.1.nodes.length ∧
      ∀ N, N ≤ h.nodes.length → out.1.nodes.take N = h.nodes.take N)
    (l : List (String × HVal)) (h : Heap) (m : Nat) (out : Heap × Nat)
    (hrun : hMergeGo rec h m l = some out) :
    out.2 = m ∧ h.nodes.length ≤ out.1.nodes.length ∧
    ∀ N, N ≤ m → N ≤ h.nodes.length →
      out.1.nodes.take N = h.nodes.take N := by
  induction l generalizing h with
  | nil =>
    simp only [hMergeGo] at hrun
    cases hrun
    exact ⟨rfl, le_refl _, fun N _ _ => rfl⟩
  | cons kv rest ih =>
    obtain ⟨key, value⟩ := kv
    simp only [hMergeGo] at hrun
    split at hrun
    next dv hgp =>
      split at hrun
      next hc =>
        split at hrun
        next hrc => cases hrun
        next h' a hrc =>
          obtain ⟨hr1, hr2⟩ := hrec h dv value (h', a) hrc
          obtain ⟨ho1, ho2, ho3⟩ :=
            ih (writeProp h' m key (.ref a)) hrun
          have hwl : (writeProp h' m key (.ref a)).nodes.length
              = h'.nodes.length := writeProp_length h' m key (.ref a)
          refine ⟨ho1, ?_, ?_⟩
          · calc h.nodes.length ≤ h'.nodes.length := hr1
              _ = (writeProp h' m key (.ref a)).nodes.length := hwl.symm
              _ ≤ out.1.nodes.length := ho2
          · intro N hNm hNh
            have hNa : N ≤ h'.nodes.length := le_trans hNh hr1
            rw [ho3 N hNm (by rw [hwl]; exact hNa),
              writeProp_take h' m N key (.ref a) hNm,
              hr2 N hNh]
      next hc =>
        obtain ⟨ho1, ho2, ho3⟩ := ih (writeProp h m key value) hrun
        refine ⟨ho1, ?_, ?_⟩
        · calc h.nodes.length = (writeProp h m key value).nodes.length :=
                (writeProp_length h m key value).symm
            _ ≤ out.1.nodes.length := ho2
        · intro N hNm hNh
          rw [ho3 N hNm (by rw [writeProp_length]; exact hNh),
            writeProp_take h m N key value hNm]
    next hgp =>
      obtain ⟨ho1, ho2, ho3⟩ := ih (writeProp h m key value) hrun
      refine ⟨ho1, ?_, ?_⟩
      · calc h.nodes.length = (writeProp h m key value).nodes.length :=
              (writeProp_length h m key value).symm
          _ ≤ out.1.nodes.length := ho2
      · intro N hNm hNh
        rw [ho3 N hNm (by rw [writeProp_length]; exact hNh),
          writeProp_take h m N key value hNm]

/-- Frame property of the heap-level `merge`: it returns a freshly
allocated object (its address is the old heap size) and only ever grows
the heap, leaving every pre-existing node untouched. -/
theorem hMerge_frame (fuel : Nat) :
    ∀ (h : Heap) (d u : HVal) (out : Heap × Nat),
      hMerge fuel h d u = some out →
      out.2 = h.nodes.length ∧ h.nodes.length < out.1.nodes.length ∧
      ∀ N, N ≤ h.nodes.length → out.1.nodes.take N = h.nodes.take N := by
  induction fuel with
  | zero =>
    intro h d u out hrun
    cases hrun
  | succ fuel ih =>
    intro h d u out hrun
    simp only [hMerge] at hrun
    by_cases hf : hFalsy u = true
    · rw [if_pos hf] at hrun
      cases hrun
      refine ⟨rfl, ?_, ?_⟩
      · simp [allocObj]
      · intro N hN
        exact List.take_append_of_le_length hN
    · rw [if_neg hf] at hrun
      have hrec : ∀ h' d' u' out', hMerge fuel h' d' u' = some out' →
          h'.nodes.length ≤ out'.1.nodes.length ∧
          ∀ N, N ≤ h'.nodes.length →
            out'.1.nodes.take N = h'.nodes.take N :=
        fun h' d' u' out' hh =>
          ⟨le_of_lt (ih h' d' u' out' hh).2.1, (ih h' d' u' out' hh).2.2⟩
      obtain ⟨ho1, ho2, ho3⟩ := hMergeGo_frame (hMerge fuel) hrec _ _ _ _ hrun
      have hal : (allocObj h (hEntries h d)).1.nodes.length
          = h.nodes.length + 1 := by simp [allocObj]
      refine ⟨ho1, ?_, ?_⟩
      · calc h.nodes.length < h.nodes.length + 1 := Nat.lt_succ_self _
          _ = (allocObj h (hEntries h d)).1.nodes.length := hal.symm
          _ ≤ out.1.nodes.length := ho2
      · intro N hN
        have hNa : N ≤ (allocObj h (hEntries h d)).1.nodes.length := by
          rw [hal]; omega
        rw [ho3 N hN hNa]
        exact List.take_append_of_le_length hN

/-- Claim C10 (merge mutates nothing): a successful heap-level
`merge(defaults, user)` run returns a freshly allocated object (its
address did not exist before the call) and leaves every pre-existing
heap node — in particular `defaults`, `user` and all their nested
objects and arrays — exactly as it was. -/
theorem merge_no_mutation (fuel : Nat) (h : Heap) (d u : HVal)
    (out : Heap × Nat) (hrun : hMerge fuel h d u = some out) :
    out.2 = h.nodes.length ∧
    ∀ a, a < h.nodes.length → out.1.nodes.get? a = h.nodes.get? a := by
  obtain ⟨h1, _, h3⟩ := hMerge_frame fuel h d u out hrun
  refine ⟨h1, fun a ha => ?_⟩
  have ht := h3 (a + 1) (by omega)
  have e1 : (out.1.nodes.take (a + 1)).get? a = out.1.nodes.get? a :=
    List.get?_take (Nat.lt_succ_self a)
  have e2 : (h.nodes.take (a + 1)).get? a = h.nodes.get? a :=
    List.get?_take (Nat.lt_succ_self a)
  rw [← e1, ht, e2]

/-- Witness for `merge_no_mutation`: merging `{x: 1}` (node 0) with
`{y: 2}` (node 1) allocates the result at the fresh address 2 and leaves
nodes 0 and 1 unchanged. -/
theorem merge_no_mutation_witness :
    hMerge 2 ⟨[.obj [("x", .num 1)], .obj [("y", .num 2)]]⟩ (.ref 0) (.ref 1) =
      some (⟨[.obj [("x", .num 1)], .obj [("y", .num 2)],
        .obj [("x", .num 1), ("y", .num 2)]]⟩, 2) ∧
    (⟨[.obj [("x", .num 1)], .obj [("y", .num 2)],
        .obj [("x", .num 1), ("y", .num 2)]]⟩ : Heap).nodes.get? 0 =
      (⟨[.obj [("x", .num 1)], .obj [("y", .num 2)]]⟩ : Heap).nodes.get? 0 ∧
    (⟨[.obj [("x", .num 1)], .obj [("y", .num 2)],
        .obj [("x", .num 1), ("y", .num 2)]]⟩ : Heap).nodes.get? 1 =
      (⟨[.obj [("x", .num 1)], .obj [("y", .num 2)]]⟩ : Heap).nodes.get? 1 := by
  refine ⟨by decide, ?_, ?_⟩
  · exact (merge_no_mutation 2 ⟨[.obj [("x", .num 1)], .obj [("y", .num 2)]]⟩
      (.ref 0) (.ref 1)
      (⟨[.obj [("x", .num 1)], .obj [("y", .num 2)],
        .obj [("x", .num 1), ("y", .num 2)]]⟩, 2) (by decide)).2 0 (by decide)
  · exact (merge_no_mutation 2 ⟨[.obj [("x", .num 1)], .obj [("y", .num 2)]]⟩
      (.ref 0) (.ref 1)
      (⟨[.obj [("x", .num 1)], .obj [("y", .num 2)],
        .obj [("x", .num 1), ("y", .num 2)]]⟩, 2) (by decide)).2 1 (by decide)

end Lume
